import Mathlib

/-!
Row extraction on the OpenCL backend: `Algo_m_extract_row_cl::execute`

A shallow embedding of `src/opencl/cl_m_extract_row.hpp`.

* Unsigned 32-bit values (`uint`) are natural numbers below `2 ^ 32`; the
  subtraction that `execute` performs on them wraps modulo `2 ^ 32`.
* Device buffers and the host array `row_bounds` are lists of bytes; a `uint`
  occupies `sizeof(uint) = 4` bytes.
* The command queue is in-order: a command enqueued on it takes effect on the
  host-visible memory when the queue is finished.
* `execute` is a state-passing function over `Host`, which also records every
  API call and every host read of `row_bounds`, in program order.
-/

namespace spla

/-! ## Enumerations -/

/-- Modelled from the spec: the closed `Status` enumeration returned by every
executor ("at minimum Ok, Error, NotImplemented"); its declaration is not part
of the source file, which only names `Status::Ok`. -/
inductive Status where
  | Ok
  | Error
  | NotImplemented
  deriving DecidableEq, Repr

/-- Vector storage formats named by the source file. -/
inductive FormatVector where
  | AccDense
  deriving DecidableEq, Repr

/-- Matrix storage formats named by the source file. -/
inductive FormatMatrix where
  | AccCsr
  deriving DecidableEq, Repr

/-! ## Unsigned 32-bit arithmetic and byte layout -/

/-- Number of values of the type `uint`. -/
def UINT_RANGE : Nat := 4294967296

/-- The constant `sizeof(uint)`. -/
def sizeof_uint : Nat := 4

/-- The constant `sizeof(row_bounds)` for `uint row_bounds[2]`. -/
def sizeof_row_bounds : Nat := 2 * sizeof_uint

/-- Subtraction of two `uint` values, as C++ evaluates it (modulo `2 ^ 32`). -/
def uint_sub (a b : Nat) : Nat := (a % UINT_RANGE + UINT_RANGE - b % UINT_RANGE) % UINT_RANGE

/-- The four bytes of a `uint`, least significant first. -/
def encode_uint (x : Nat) : List Nat :=
  [x % 256, x / 256 % 256, x / 65536 % 256, x / 16777216 % 256]

/-- The `uint` stored in four bytes, least significant first. -/
def decode_uint : List Nat → Nat
  | [b0, b1, b2, b3] => b0 + 256 * b1 + 65536 * b2 + 16777216 * b3
  | _ => 0

/-- Byte image of an array of `uint`. -/
def to_bytes : List Nat → List Nat
  | [] => []
  | x :: xs => encode_uint x ++ to_bytes xs

/-- The `uint` at position `k` of an array given by its bytes. -/
def uint_at (bytes : List Nat) (k : Nat) : Nat :=
  decode_uint ((bytes.drop (k * sizeof_uint)).take sizeof_uint)

/-! ## Launch arithmetic -/

/-- Modelled from the spec: `ceil(n / d)`, the rounded-up quotient used for the
group count; the helper's definition is not part of the source file. -/
def div_up (n d : Nat) : Nat := n / d + (if n % d = 0 then 0 else 1)

/-- Modelled from the spec: `clamp(x, left, right)`. -/
def clamp (x left right : Nat) : Nat := min (max x left) right

/-- Modelled from the spec: `div_up_clamp(n, d, left, right)` is
`clamp(ceil(n / d), left, right)`; the helper's definition is not part of the
source file. -/
def div_up_clamp (n d left right : Nat) : Nat := clamp (div_up n d) left right

/-! ## Device objects -/

/-- A device memory object (`cl::Buffer`): a handle and its contents. -/
structure Buffer where
  handle : Nat
  bytes : List Nat
  deriving DecidableEq, Repr

/-- The buffers of a compressed-row matrix on the device (`CLCsr<T>`), with the
members the source uses. -/
structure CLCsr where
  Ap : Buffer
  Aj : Buffer
  Ax : Buffer
  deriving DecidableEq, Repr

/-- The buffer of a dense vector on the device (`CLDenseVec<T>`). -/
structure CLDenseVec where
  Ax : Buffer
  deriving DecidableEq, Repr

/-- The accelerator, with the one query the executor makes of it. -/
structure CLAccelerator where
  default_wgs : Nat
  deriving DecidableEq, Repr

/-- The task `ScheduleTask_m_extract_row`, operands already resolved to their
device decorations. -/
structure ScheduleTask_m_extract_row where
  r : CLDenseVec
  M : CLCsr
  op_apply : String
  index : Nat
  deriving DecidableEq, Repr

/-- A value bound to a kernel argument slot. -/
inductive KernelArg where
  | mem (b : Buffer)
  | uint (v : Nat)
  deriving DecidableEq, Repr

/-- A kernel object: entry point and the arguments bound so far. -/
structure Kernel where
  name : String
  args : List (Nat × KernelArg)
  deriving DecidableEq, Repr

/-- A compiled program handle (`CLProgram`). -/
structure CLProgram where
  name : String
  op_apply : String
  deriving DecidableEq, Repr

/-- A command on the queue. -/
inductive Command where
  | CopyBuffer (src : Buffer) (src_offset dst_offset size : Nat)
  | NDRangeKernel (kernel : Kernel) (offset global_size local_size : Nat)
  deriving DecidableEq, Repr

/-- What the host does, in program order: API calls, under the names the source
uses, and reads of `row_bounds`. -/
inductive Event where
  | validate_wd (format : FormatVector)
  | validate_rw (format : FormatMatrix)
  | enqueueCopyBuffer (src : Buffer) (src_offset dst_offset size : Nat)
  | finish
  | acquire (program : String)
  | make_kernel (entry : String)
  | setArg (index : Nat) (arg : KernelArg)
  | read_row_bounds (k : Nat)
  | enqueueNDRangeKernel (kernel : Kernel) (offset global_size local_size : Nat)
  deriving DecidableEq, Repr

/-- Results of the calls that can fail, as the runtime and the device report
them to `execute`. -/
structure Outcomes where
  validate_r : Bool
  validate_M : Bool
  copy : Bool
  launch : Bool
  deriving DecidableEq, Repr

/-- Host-visible state while `execute` runs. -/
structure Host where
  row_bounds : List Nat
  queue : List Command
  events : List Event
  deriving DecidableEq, Repr

/-! ## The operations `execute` calls -/

/-- Record an event. -/
def Host.emit (h : Host) (e : Event) : Host :=
  { h with events := h.events ++ [e] }

/-- The call `r->validate_wd(format)` on the result vector; the flag is the
outcome. The method belongs to the container, whose declaration is not part of
the source file: the call is recorded under the name the source uses. -/
def validate_wd (ok : Bool) (format : FormatVector) (h : Host) : Host × Bool :=
  (h.emit (Event.validate_wd format), ok)

/-- The call `M->validate_rw(format)` on the matrix; the flag is the outcome.
The method belongs to the container, whose declaration is not part of the
source file: the call is recorded under the name the source uses. -/
def validate_rw (ok : Bool) (format : FormatMatrix) (h : Host) : Host × Bool :=
  (h.emit (Event.validate_rw format), ok)

/-- The call `queue.enqueueCopyBuffer(src, cl_row_bounds, src_offset, dst_offset, size)`.
The command is rejected when the device reports a failure or a region lies
outside its buffer; the destination aliases the host array `row_bounds`. -/
def enqueueCopyBuffer (ok : Bool) (src : Buffer) (src_offset dst_offset size : Nat)
    (h : Host) : Host × Bool :=
  let h1 := h.emit (Event.enqueueCopyBuffer src src_offset dst_offset size)
  if ok = true ∧ src_offset + size ≤ src.bytes.length
      ∧ dst_offset + size ≤ h.row_bounds.length then
    ({ h1 with queue := h1.queue ++ [Command.CopyBuffer src src_offset dst_offset size] }, true)
  else
    (h1, false)

/-- Effect of one completed command on the host array. -/
def run_command (row_bounds : List Nat) : Command → List Nat
  | Command.CopyBuffer src src_offset dst_offset size =>
      row_bounds.take dst_offset ++ (src.bytes.drop src_offset).take size
        ++ row_bounds.drop (dst_offset + size)
  | Command.NDRangeKernel _ _ _ _ => row_bounds

/-- The call `queue.finish()`: block until every enqueued command has completed. -/
def finish (h : Host) : Host :=
  { row_bounds := h.queue.foldl run_command h.row_bounds,
    queue := [],
    events := h.events ++ [Event.finish] }

/-- The private method `ensure_kernel`: acquire the program specialised for the
operator. -/
def ensure_kernel (op_apply : String) (h : Host) : CLProgram × Host :=
  ({ name := "m_extract_row", op_apply := op_apply }, h.emit (Event.acquire "m_extract_row"))

/-- The call `program->make_kernel(entry)`. -/
def make_kernel (_program : CLProgram) (entry : String) (h : Host) : Kernel × Host :=
  ({ name := entry, args := [] }, h.emit (Event.make_kernel entry))

/-- The call `kernel.setArg(index, arg)`. -/
def setArg (index : Nat) (arg : KernelArg) (k : Kernel) (h : Host) : Kernel × Host :=
  ({ k with args := k.args.filter (fun p => p.1 ≠ index) ++ [(index, arg)] },
    h.emit (Event.setArg index arg))

/-- A host read of `row_bounds[k]`. -/
def read_row_bounds (k : Nat) (h : Host) : Nat × Host :=
  (uint_at h.row_bounds k, h.emit (Event.read_row_bounds k))

/-- The call `queue.enqueueNDRangeKernel(kernel, offset, global, local)`. -/
def enqueueNDRangeKernel (ok : Bool) (kernel : Kernel) (offset global_size local_size : Nat)
    (h : Host) : Host × Bool :=
  let h1 := h.emit (Event.enqueueNDRangeKernel kernel offset global_size local_size)
  if ok = true then
    ({ h1 with queue := h1.queue ++ [Command.NDRangeKernel kernel offset global_size local_size] },
      true)
  else
    (h1, false)

/-! ## The executor -/

/-- What a run of `execute` leaves behind: the returned status, the local `n`,
the results of the fallible calls (which the code does not inspect), and the
final host state. -/
structure Run where
  status : Status
  n : Nat
  validate_r_ok : Bool
  validate_M_ok : Bool
  copy_ok : Bool
  launch_ok : Bool
  host : Host
  deriving DecidableEq, Repr

/-- The method `Algo_m_extract_row_cl::execute`. `garbage` is the indeterminate
initial content of the uninitialised array `row_bounds`. The byte offset
`t->index * sizeof(uint)` is a `size_t` product and does not wrap. The global
extent is held in a `cl::NDRange` (`size_t`); the accelerator's declaration is
not part of the source file and the product with the group count is taken
exactly. The results of the calls are kept in the `Run` only; the code discards
them. -/
def execute (out : Outcomes) (acc : CLAccelerator) (t : ScheduleTask_m_extract_row)
    (garbage : Nat × Nat) : Run :=
  let h : Host := { row_bounds := encode_uint garbage.1 ++ encode_uint garbage.2,
                    queue := [], events := [] }
  let v1 := validate_wd out.validate_r FormatVector.AccDense h
  let v2 := validate_rw out.validate_M FormatMatrix.AccCsr v1.1
  let p_cl_r := t.r
  let p_cl_M := t.M
  let c := enqueueCopyBuffer out.copy p_cl_M.Ap (t.index * sizeof_uint) 0 sizeof_row_bounds v2.1
  let h := finish c.1
  let p := ensure_kernel t.op_apply h
  let k := make_kernel p.1 "extract_row" p.2
  let k := setArg 0 (KernelArg.mem p_cl_r.Ax) k.1 k.2
  let k := setArg 1 (KernelArg.mem p_cl_M.Ax) k.1 k.2
  let k := setArg 2 (KernelArg.mem p_cl_M.Aj) k.1 k.2
  let b := read_row_bounds 1 k.2
  let k := setArg 3 (KernelArg.uint b.1) k.1 b.2
  let e := read_row_bounds 1 k.2
  let s := read_row_bounds 0 e.2
  let n := uint_sub (uint_sub e.1 s.1) 1
  let global_size := acc.default_wgs * div_up_clamp n acc.default_wgs 1 1024
  let local_size := acc.default_wgs
  let o := read_row_bounds 0 s.2
  let l := enqueueNDRangeKernel out.launch k.1 o.1 global_size local_size o.2
  { status := Status.Ok, n := n,
    validate_r_ok := v1.2, validate_M_ok := v2.2, copy_ok := c.2, launch_ok := l.2,
    host := l.1 }

/-- The kernel launch a run leaves on the queue, if any. -/
def Run.launch (r : Run) : Option Command :=
  r.host.queue.getLast?

/-- A compressed-row matrix on the device whose row-pointer buffer holds `Ap`. -/
def csr_of (Ap : List Nat) : CLCsr :=
  { Ap := { handle := 1, bytes := to_bytes Ap },
    Aj := { handle := 2, bytes := [] },
    Ax := { handle := 3, bytes := [] } }

/-- The task of extracting row `index` of the matrix with row pointers `Ap`. -/
def task_of (Ap : List Nat) (index : Nat) : ScheduleTask_m_extract_row :=
  { r := { Ax := { handle := 0, bytes := [] } }, M := csr_of Ap, op_apply := "identity",
    index := index }

/-- The kernel object as `execute` binds it when the end offset read is `b`. -/
def bound_kernel (t : ScheduleTask_m_extract_row) (b : Nat) : Kernel :=
  { name := "extract_row",
    args := [(0, KernelArg.mem t.r.Ax), (1, KernelArg.mem t.M.Ax), (2, KernelArg.mem t.M.Aj),
             (3, KernelArg.uint b)] }

/-- The events of a run whose reads of `row_bounds[0]` and `row_bounds[1]`
return `a` and `b`, on an accelerator with workgroup size `w`. -/
def run_events (w : Nat) (t : ScheduleTask_m_extract_row) (a b : Nat) : List Event :=
  [Event.validate_wd FormatVector.AccDense,
   Event.validate_rw FormatMatrix.AccCsr,
   Event.enqueueCopyBuffer t.M.Ap (t.index * sizeof_uint) 0 sizeof_row_bounds,
   Event.finish,
   Event.acquire "m_extract_row",
   Event.make_kernel "extract_row",
   Event.setArg 0 (KernelArg.mem t.r.Ax),
   Event.setArg 1 (KernelArg.mem t.M.Ax),
   Event.setArg 2 (KernelArg.mem t.M.Aj),
   Event.read_row_bounds 1,
   Event.setArg 3 (KernelArg.uint b),
   Event.read_row_bounds 1,
   Event.read_row_bounds 0,
   Event.read_row_bounds 0,
   Event.enqueueNDRangeKernel (bound_kernel t b) a
     (w * div_up_clamp (uint_sub (uint_sub b a) 1) w 1 1024) w]

/-- Every call reports success. -/
def all_ok : Outcomes :=
  { validate_r := true, validate_M := true, copy := true, launch := true }

/-- The events that use a value copied into `row_bounds`: the host reads of the
array, the binding of kernel argument 3 and the kernel enqueue (whose offset
and extent are computed from the array). -/
def uses_row_bounds : Event → Bool
  | Event.read_row_bounds _ => true
  | Event.setArg index _ => index == 3
  | Event.enqueueNDRangeKernel _ _ _ _ => true
  | _ => false

/-! ## Byte layout lemmas -/

theorem decode_encode_uint (x : Nat) (hx : x < UINT_RANGE) :
    decode_uint (encode_uint x) = x := by
  unfold UINT_RANGE at hx
  simp only [encode_uint, decode_uint]
  omega

theorem encode_uint_length (x : Nat) : (encode_uint x).length = 4 := rfl

theorem to_bytes_length (xs : List Nat) : (to_bytes xs).length = 4 * xs.length := by
  induction xs with
  | nil => rfl
  | cons x xs ih => simp [to_bytes, encode_uint_length, ih]; omega

theorem to_bytes_drop (xs : List Nat) (i : Nat) :
    (to_bytes xs).drop (i * 4) = to_bytes (xs.drop i) := by
  induction xs generalizing i with
  | nil => simp [to_bytes]
  | cons x xs ih =>
    cases i with
    | zero => simp
    | succ i =>
      have h := ih i
      simp only [to_bytes, List.drop_succ_cons, encode_uint, Nat.succ_mul, List.cons_append,
        List.nil_append]
      exact h

theorem to_bytes_window (xs : List Nat) (i : Nat) (hi : i + 1 < xs.length) :
    ((to_bytes xs).drop (i * 4)).take 8 =
      encode_uint (xs.getD i 0) ++ encode_uint (xs.getD (i + 1) 0) := by
  rw [to_bytes_drop]
  have h1 : xs.drop i = xs.getD i 0 :: xs.getD (i + 1) 0 :: xs.drop (i + 2) := by
    have hi0 : i < xs.length := by omega
    rw [List.drop_eq_getElem_cons hi0, List.drop_eq_getElem_cons hi]
    simp [List.getD_eq_getElem, hi0, hi]
  rw [h1]
  simp [to_bytes, encode_uint]

theorem uint_at_pair (a b : Nat) (ha : a < UINT_RANGE) (hb : b < UINT_RANGE) :
    uint_at (encode_uint a ++ encode_uint b) 0 = a ∧
    uint_at (encode_uint a ++ encode_uint b) 1 = b := by
  constructor
  · have h : uint_at (encode_uint a ++ encode_uint b) 0 = decode_uint (encode_uint a) := by
      simp [uint_at, sizeof_uint, encode_uint]
    rw [h, decode_encode_uint a ha]
  · have h : uint_at (encode_uint a ++ encode_uint b) 1 = decode_uint (encode_uint b) := by
      simp [uint_at, sizeof_uint, encode_uint]
    rw [h, decode_encode_uint b hb]

/-! ## What a run of `execute` does -/

theorem execute_events (out : Outcomes) (acc : CLAccelerator) (t : ScheduleTask_m_extract_row)
    (g : Nat × Nat) :
    (execute out acc t g).host.events =
      run_events acc.default_wgs t (uint_at (execute out acc t g).host.row_bounds 0)
        (uint_at (execute out acc t g).host.row_bounds 1) := by
  simp only [execute, validate_wd, validate_rw, enqueueCopyBuffer, finish, ensure_kernel,
    make_kernel, setArg, read_row_bounds, enqueueNDRangeKernel, Host.emit, run_events,
    bound_kernel]
  split <;> split <;> simp

theorem execute_row_bounds (out : Outcomes) (acc : CLAccelerator)
    (t : ScheduleTask_m_extract_row) (g : Nat × Nat) (Ap : List Nat)
    (hM : t.M.Ap.bytes = to_bytes Ap) (hi : t.index + 1 < Ap.length) (hc : out.copy = true) :
    (execute out acc t g).host.row_bounds =
      encode_uint (Ap.getD t.index 0) ++ encode_uint (Ap.getD (t.index + 1) 0) := by
  have hlen : t.index * 4 + 8 ≤ (to_bytes Ap).length := by
    rw [to_bytes_length]; omega
  have hw := to_bytes_window Ap t.index hi
  simp only [execute, validate_wd, validate_rw, enqueueCopyBuffer, finish, ensure_kernel,
    make_kernel, setArg, read_row_bounds, enqueueNDRangeKernel, Host.emit, hM, hc,
    sizeof_uint, sizeof_row_bounds]
  simp only [encode_uint, hlen, List.length_cons, List.length_nil, List.cons_append,
    List.nil_append]
  split <;> simp [run_command, hM, hw, encode_uint, hlen]

theorem execute_n (out : Outcomes) (acc : CLAccelerator) (t : ScheduleTask_m_extract_row)
    (g : Nat × Nat) :
    (execute out acc t g).n =
      uint_sub (uint_sub (uint_at (execute out acc t g).host.row_bounds 1)
        (uint_at (execute out acc t g).host.row_bounds 0)) 1 := by
  simp only [execute, validate_wd, validate_rw, enqueueCopyBuffer, finish, ensure_kernel,
    make_kernel, setArg, read_row_bounds, enqueueNDRangeKernel, Host.emit]
  split <;> split <;> simp

theorem execute_queue (out : Outcomes) (acc : CLAccelerator) (t : ScheduleTask_m_extract_row)
    (g : Nat × Nat) :
    (execute out acc t g).host.queue =
      if out.launch = true then
        [Command.NDRangeKernel
          (bound_kernel t (uint_at (execute out acc t g).host.row_bounds 1))
          (uint_at (execute out acc t g).host.row_bounds 0)
          (acc.default_wgs * div_up_clamp (execute out acc t g).n acc.default_wgs 1 1024)
          acc.default_wgs]
      else [] := by
  simp only [execute, validate_wd, validate_rw, enqueueCopyBuffer, finish, ensure_kernel,
    make_kernel, setArg, read_row_bounds, enqueueNDRangeKernel, Host.emit, bound_kernel]
  split <;> split <;> simp

theorem execute_copy_ok (out : Outcomes) (acc : CLAccelerator) (t : ScheduleTask_m_extract_row)
    (g : Nat × Nat) :
    (execute out acc t g).copy_ok =
      decide (out.copy = true ∧ t.index * 4 + 8 ≤ t.M.Ap.bytes.length) := by
  simp only [execute, validate_wd, validate_rw, enqueueCopyBuffer, finish, ensure_kernel,
    make_kernel, setArg, read_row_bounds, enqueueNDRangeKernel, Host.emit, sizeof_uint,
    sizeof_row_bounds]
  split <;> simp_all [encode_uint]

theorem div_up_mul_ge (n d : Nat) (hd : 0 < d) : n ≤ d * div_up n d := by
  unfold div_up
  have h := Nat.div_add_mod n d
  have hm := Nat.mod_lt n hd
  split
  · rename_i h0; rw [h0] at h; simp at h ⊢; omega
  · rw [Nat.mul_add]; omega

theorem div_up_mul_lt (n d : Nat) (hd : 0 < d) : d * div_up n d < n + d := by
  unfold div_up
  have h := Nat.div_add_mod n d
  split
  · simp; omega
  · rename_i h0
    rw [Nat.mul_add]
    have : 0 < n % d := Nat.pos_of_ne_zero h0
    omega

theorem div_up_eq_ceil (n d : Nat) (hd : 0 < d) : div_up n d = ⌈(n : ℚ) / (d : ℚ)⌉₊ := by
  symm
  have hdq : (0 : ℚ) < d := by exact_mod_cast hd
  have h1 := div_up_mul_ge n d hd
  have h2 := div_up_mul_lt n d hd
  apply le_antisymm
  · rw [Nat.ceil_le, div_le_iff₀ hdq]
    have : (n : ℚ) ≤ ((d * div_up n d : Nat) : ℚ) := by exact_mod_cast h1
    push_cast at this
    linarith
  · by_contra hlt
    push_neg at hlt
    have h3 : ⌈(n : ℚ) / (d : ℚ)⌉₊ + 1 ≤ div_up n d := hlt
    have h4 : (n : ℚ) / d ≤ ⌈(n : ℚ) / (d : ℚ)⌉₊ := Nat.le_ceil _
    rw [div_le_iff₀ hdq] at h4
    have h5 : n ≤ ⌈(n : ℚ) / (d : ℚ)⌉₊ * d := by exact_mod_cast h4
    have h6 : d * (⌈(n : ℚ) / (d : ℚ)⌉₊ + 1) ≤ d * div_up n d := Nat.mul_le_mul_left d h3
    nlinarith


theorem execute_bounds_values (out : Outcomes) (acc : CLAccelerator)
    (t : ScheduleTask_m_extract_row) (g : Nat × Nat) (Ap : List Nat)
    (hM : t.M.Ap.bytes = to_bytes Ap) (hr : ∀ x ∈ Ap, x < UINT_RANGE)
    (hi : t.index + 1 < Ap.length) (hc : out.copy = true) :
    uint_at (execute out acc t g).host.row_bounds 0 = Ap.getD t.index 0 ∧
    uint_at (execute out acc t g).host.row_bounds 1 = Ap.getD (t.index + 1) 0 := by
  rw [execute_row_bounds out acc t g Ap hM hi hc]
  have hi0 : t.index < Ap.length := by omega
  apply uint_at_pair
  · rw [List.getD_eq_getElem _ _ hi0]; exact hr _ (List.getElem_mem _)
  · rw [List.getD_eq_getElem _ _ hi]; exact hr _ (List.getElem_mem _)

theorem run_events_getLast (w : Nat) (t : ScheduleTask_m_extract_row) (a b : Nat) :
    (run_events w t a b).getLast? =
      some (Event.enqueueNDRangeKernel (bound_kernel t b) a
        (w * div_up_clamp (uint_sub (uint_sub b a) 1) w 1 1024) w) := by
  simp [run_events]

/-- Claim C1 (evaluation at the claim's own witness): for the matrix with row
pointers `[0,2,2,3,6]` and row index 3, whose row holds `6 - 3 = 3` elements,
the element count `n` that `execute` computes is 2, not 3. -/
theorem execute_count_row3 (acc : CLAccelerator) (g : Nat × Nat) :
    (execute all_ok acc (task_of [0, 2, 2, 3, 6] 3) g).n = 2 ∧
    (execute all_ok acc (task_of [0, 2, 2, 3, 6] 3) g).n ≠
      [0, 2, 2, 3, 6].getD 4 0 - [0, 2, 2, 3, 6].getD 3 0 := by
  have h := execute_bounds_values all_ok acc (task_of [0, 2, 2, 3, 6] 3) g [0, 2, 2, 3, 6] rfl
    (by decide) (by decide) rfl
  have hn : (execute all_ok acc (task_of [0, 2, 2, 3, 6] 3) g).n = 2 := by
    rw [execute_n, h.1, h.2]; decide
  rw [hn]
  exact ⟨rfl, by decide⟩

theorem execute_validate_calls (out : Outcomes) (acc : CLAccelerator)
    (t : ScheduleTask_m_extract_row) (g : Nat × Nat) :
    (execute out acc t g).host.events.take 2 =
      [Event.validate_wd FormatVector.AccDense, Event.validate_rw FormatMatrix.AccCsr] := by
  rw [execute_events]
  rfl

/-- Claim C3 (counterexample): in the run where the device rejects the
row-boundary copy while every other call succeeds, the copy is reported failed
and `execute` still returns `Status::Ok`, not `Status::Error`; so `Status::Ok`
is not returned exactly when all four calls succeed. -/
theorem execute_ok_despite_failed_copy :
    (execute { validate_r := true, validate_M := true, copy := false, launch := true }
        { default_wgs := 64 } (task_of [0, 2, 2, 3, 6] 3) (0, 0)).copy_ok = false ∧
    (execute { validate_r := true, validate_M := true, copy := false, launch := true }
        { default_wgs := 64 } (task_of [0, 2, 2, 3, 6] 3) (0, 0)).status = Status.Ok ∧
    ¬ ((execute { validate_r := true, validate_M := true, copy := false, launch := true }
        { default_wgs := 64 } (task_of [0, 2, 2, 3, 6] 3) (0, 0)).status = Status.Error) ∧
    ¬ ((execute { validate_r := true, validate_M := true, copy := false, launch := true }
          { default_wgs := 64 } (task_of [0, 2, 2, 3, 6] 3) (0, 0)).status = Status.Ok ↔
        ((execute { validate_r := true, validate_M := true, copy := false, launch := true }
          { default_wgs := 64 } (task_of [0, 2, 2, 3, 6] 3) (0, 0)).validate_r_ok = true ∧
         (execute { validate_r := true, validate_M := true, copy := false, launch := true }
          { default_wgs := 64 } (task_of [0, 2, 2, 3, 6] 3) (0, 0)).validate_M_ok = true ∧
         (execute { validate_r := true, validate_M := true, copy := false, launch := true }
          { default_wgs := 64 } (task_of [0, 2, 2, 3, 6] 3) (0, 0)).copy_ok = true ∧
         (execute { validate_r := true, validate_M := true, copy := false, launch := true }
          { default_wgs := 64 } (task_of [0, 2, 2, 3, 6] 3) (0, 0)).launch_ok = true)) := by
  decide

/-- Claim C3 (amended): `execute` returns `Status::Ok` in every run, whatever the
two validate calls, the row-boundary copy and the kernel enqueue report; it
never returns `Status::Error`. -/
theorem execute_status_always_ok (out : Outcomes) (acc : CLAccelerator)
    (t : ScheduleTask_m_extract_row) (g : Nat × Nat) :
    (execute out acc t g).status = Status.Ok ∧
    (execute out acc t g).status ≠ Status.Error ∧
    (execute out acc t g).validate_r_ok = out.validate_r ∧
    (execute out acc t g).validate_M_ok = out.validate_M ∧
    (execute out acc t g).copy_ok =
      decide (out.copy = true ∧ t.index * 4 + 8 ≤ t.M.Ap.bytes.length) ∧
    (execute out acc t g).launch_ok = out.launch := by
  refine ⟨rfl, ?_, rfl, rfl, execute_copy_ok out acc t g, ?_⟩
  · intro h; exact Status.noConfusion (show Status.Ok = Status.Error from h)
  · simp only [execute, enqueueNDRangeKernel]
    split <;> simp_all


theorem div_up_clamp_eq_ceil (n w : Nat) (hw : 1 ≤ w) :
    div_up_clamp n w 1 1024 = min (max ⌈(n : ℚ) / (w : ℚ)⌉₊ 1) 1024 := by
  rw [← div_up_eq_ceil n w hw]
  rfl

/-- Claim C4: for every element count `n` and workgroup size `w ≥ 1`, the group
count `div_up_clamp(n, w, 1, 1024)` is `clamp(ceil(n / w), 1, 1024)`, lies
between 1 and 1024, is 1 for `n = 0` and is 1024 whenever `n > 1024 * w`. -/
theorem div_up_clamp_group_count (n w : Nat) (hw : 1 ≤ w) :
    div_up_clamp n w 1 1024 = min (max ⌈(n : ℚ) / (w : ℚ)⌉₊ 1) 1024 ∧
    1 ≤ div_up_clamp n w 1 1024 ∧
    div_up_clamp n w 1 1024 ≤ 1024 ∧
    (n = 0 → div_up_clamp n w 1 1024 = 1) ∧
    (1024 * w < n → div_up_clamp n w 1 1024 = 1024) := by
  refine ⟨div_up_clamp_eq_ceil n w hw, ?_, ?_, ?_, ?_⟩
  · simp only [div_up_clamp, clamp]; omega
  · simp only [div_up_clamp, clamp]; omega
  · intro h0
    subst h0
    simp [div_up_clamp, clamp, div_up]
  · intro hbig
    have h1 := div_up_mul_ge n w hw
    have h2 : 1024 < div_up n w := by
      by_contra hle
      push_neg at hle
      have : w * div_up n w ≤ w * 1024 := Nat.mul_le_mul_left w hle
      omega
    simp only [div_up_clamp, clamp]
    omega

/-- Claim C4 (witness): the group count at `n = 70000`, `w = 64`. -/
theorem div_up_clamp_group_count_witness :
    1 ≤ 64 ∧ 1024 * 64 < 70000 ∧ div_up_clamp 70000 64 1 1024 = 1024 :=
  ⟨by decide, by decide,
    (div_up_clamp_group_count 70000 64 (by decide)).2.2.2.2 (by decide)⟩

/-- Claim C5 (evaluation at the claim's own witness): extracting the empty row 1
of the matrix with row pointers `[0,2,2,3,6]` on an accelerator with workgroup
size 64, `execute` computes `n = 4294967295`, not 0, and enqueues 1024 groups
(global extent 65536), not one; it returns `Status::Ok`. -/
theorem execute_empty_row (g : Nat × Nat) :
    (execute all_ok { default_wgs := 64 } (task_of [0, 2, 2, 3, 6] 1) g).n = 4294967295 ∧
    (execute all_ok { default_wgs := 64 } (task_of [0, 2, 2, 3, 6] 1) g).launch =
      some (Command.NDRangeKernel (bound_kernel (task_of [0, 2, 2, 3, 6] 1) 2) 2 (64 * 1024) 64) ∧
    (execute all_ok { default_wgs := 64 } (task_of [0, 2, 2, 3, 6] 1) g).status = Status.Ok := by
  have h := execute_bounds_values all_ok { default_wgs := 64 } (task_of [0, 2, 2, 3, 6] 1) g
    [0, 2, 2, 3, 6] rfl (by decide) (by decide) rfl
  have hn : (execute all_ok { default_wgs := 64 } (task_of [0, 2, 2, 3, 6] 1) g).n
      = 4294967295 := by
    rw [execute_n, h.1, h.2]; decide
  refine ⟨hn, ?_, rfl⟩
  rw [Run.launch, execute_queue, hn, h.1, h.2]
  decide

theorem uint_sub_int (a b : Nat) (ha : a < UINT_RANGE) (hb : b < UINT_RANGE) :
    ((uint_sub (uint_sub b a) 1 : Nat) : Int) = ((b : Int) - (a : Int) - 1) % 4294967296 := by
  unfold UINT_RANGE at ha hb
  simp only [uint_sub, UINT_RANGE]
  omega

/-- Claim C6: for a valid row index and workgroup size `w ≥ 1`, with `n` the
element count as `execute` computes it, `Ap[i+1] - Ap[i] - 1` in unsigned 32-bit
arithmetic, the kernel is enqueued with group count `clamp(ceil(n / w), 1, 1024)`,
global extent group count times `w`, global offset `Ap[i]` and local extent `w`. -/
theorem execute_launch_geometry (out : Outcomes) (acc : CLAccelerator)
    (t : ScheduleTask_m_extract_row) (g : Nat × Nat) (Ap : List Nat)
    (hM : t.M.Ap.bytes = to_bytes Ap) (hr : ∀ x ∈ Ap, x < UINT_RANGE)
    (hi : t.index + 1 < Ap.length) (hc : out.copy = true) (hw : 1 ≤ acc.default_wgs) :
    (((execute out acc t g).n : Nat) : Int) =
      ((Ap.getD (t.index + 1) 0 : Int) - (Ap.getD t.index 0 : Int) - 1) % 4294967296 ∧
    (Ap.getD t.index 0 < Ap.getD (t.index + 1) 0 →
      (execute out acc t g).n = Ap.getD (t.index + 1) 0 - Ap.getD t.index 0 - 1) ∧
    ∃ kernel, (execute out acc t g).host.events.getLast? =
      some (Event.enqueueNDRangeKernel kernel (Ap.getD t.index 0)
        (min (max ⌈((execute out acc t g).n : ℚ) / (acc.default_wgs : ℚ)⌉₊ 1) 1024
          * acc.default_wgs)
        acc.default_wgs) := by
  have h := execute_bounds_values out acc t g Ap hM hr hi hc
  have hi0 : t.index < Ap.length := by omega
  have ha : Ap.getD t.index 0 < UINT_RANGE := by
    rw [List.getD_eq_getElem _ _ hi0]; exact hr _ (List.getElem_mem _)
  have hb : Ap.getD (t.index + 1) 0 < UINT_RANGE := by
    rw [List.getD_eq_getElem _ _ hi]; exact hr _ (List.getElem_mem _)
  have hn := execute_n out acc t g
  rw [h.1, h.2] at hn
  refine ⟨?_, ?_, ?_⟩
  · rw [hn]; exact uint_sub_int _ _ ha hb
  · intro hlt
    rw [hn]
    unfold UINT_RANGE at ha hb
    simp only [uint_sub, UINT_RANGE]
    omega
  · refine ⟨bound_kernel t (Ap.getD (t.index + 1) 0), ?_⟩
    rw [execute_events, run_events_getLast, h.1, h.2, hn,
      ← div_up_clamp_eq_ceil _ _ hw, Nat.mul_comm]

/-- Claim C6 (witness): row 3 of the matrix with row pointers `[0,2,2,3,6]`,
workgroup size 64. -/
theorem execute_launch_geometry_witness :
    (∀ x ∈ [0, 2, 2, 3, 6], x < UINT_RANGE) ∧ 3 + 1 < [0, 2, 2, 3, 6].length ∧ 1 ≤ 64 ∧
    ∃ kernel,
      (execute all_ok { default_wgs := 64 } (task_of [0, 2, 2, 3, 6] 3) (0, 0)).host.events.getLast? =
        some (Event.enqueueNDRangeKernel kernel ([0, 2, 2, 3, 6].getD 3 0)
          (min (max ⌈((execute all_ok { default_wgs := 64 } (task_of [0, 2, 2, 3, 6] 3) (0, 0)).n : ℚ)
            / ((64 : Nat) : ℚ)⌉₊ 1) 1024 * 64) 64) :=
  ⟨by decide, by decide, by decide,
    (execute_launch_geometry all_ok { default_wgs := 64 } (task_of [0, 2, 2, 3, 6] 3) (0, 0)
      [0, 2, 2, 3, 6] rfl (by decide) (by decide) rfl (by decide)).2.2⟩

/-- Claim C7: for a valid row index the kernel `extract_row` is enqueued with
exactly four arguments, bound in this order: 0 is `r.Ax`, 1 is `M.Ax`, 2 is
`M.Aj`, 3 is the end offset `Ap[i+1]` read from the row-pointer array. -/
theorem execute_kernel_arguments (out : Outcomes) (acc : CLAccelerator)
    (t : ScheduleTask_m_extract_row) (g : Nat × Nat) (Ap : List Nat)
    (hM : t.M.Ap.bytes = to_bytes Ap) (hr : ∀ x ∈ Ap, x < UINT_RANGE)
    (hi : t.index + 1 < Ap.length) (hc : out.copy = true) :
    (∃ offset global_size local_size, (execute out acc t g).host.events.getLast? =
      some (Event.enqueueNDRangeKernel
        { name := "extract_row",
          args := [(0, KernelArg.mem t.r.Ax), (1, KernelArg.mem t.M.Ax),
                   (2, KernelArg.mem t.M.Aj), (3, KernelArg.uint (Ap.getD (t.index + 1) 0))] }
        offset global_size local_size)) ∧
    (execute out acc t g).host.events.filterMap
        (fun e => match e with
          | Event.setArg index arg => some (index, arg)
          | _ => none) =
      [(0, KernelArg.mem t.r.Ax), (1, KernelArg.mem t.M.Ax), (2, KernelArg.mem t.M.Aj),
       (3, KernelArg.uint (Ap.getD (t.index + 1) 0))] := by
  have h := execute_bounds_values out acc t g Ap hM hr hi hc
  rw [execute_events, run_events_getLast, h.1, h.2]
  refine ⟨⟨_, _, _, rfl⟩, ?_⟩
  simp [run_events]

/-- Claim C7 (witness): row 3 of the matrix with row pointers `[0,2,2,3,6]`. -/
theorem execute_kernel_arguments_witness :
    (∀ x ∈ [0, 2, 2, 3, 6], x < UINT_RANGE) ∧ 3 + 1 < [0, 2, 2, 3, 6].length ∧
    (execute all_ok { default_wgs := 64 } (task_of [0, 2, 2, 3, 6] 3) (0, 0)).host.events.filterMap
        (fun e => match e with
          | Event.setArg index arg => some (index, arg)
          | _ => none) =
      [(0, KernelArg.mem (task_of [0, 2, 2, 3, 6] 3).r.Ax),
       (1, KernelArg.mem (task_of [0, 2, 2, 3, 6] 3).M.Ax),
       (2, KernelArg.mem (task_of [0, 2, 2, 3, 6] 3).M.Aj),
       (3, KernelArg.uint ([0, 2, 2, 3, 6].getD (3 + 1) 0))] :=
  ⟨by decide, by decide,
    (execute_kernel_arguments all_ok { default_wgs := 64 } (task_of [0, 2, 2, 3, 6] 3) (0, 0)
      [0, 2, 2, 3, 6] rfl (by decide) (by decide) rfl).2⟩

/-- Claim C8: in every run the events are: some events that use no copied
offset and do not block, then the enqueue of the row-boundary copy, then
`queue.finish()`, then the remaining events, among them every use of the copied
offsets; the kernel enqueue is the last event, `finish` occurs exactly once, and
the enqueued kernel is still on the queue when `execute` returns. -/
theorem execute_blocks_once (out : Outcomes) (acc : CLAccelerator)
    (t : ScheduleTask_m_extract_row) (g : Nat × Nat) :
    (∃ before after kernel offset global_size local_size,
      (execute out acc t g).host.events =
        before ++ Event.enqueueCopyBuffer t.M.Ap (t.index * 4) 0 8 :: Event.finish :: after ∧
      (∀ e ∈ before, uses_row_bounds e = false ∧ e ≠ Event.finish) ∧
      Event.finish ∉ after ∧
      (∃ b, Event.setArg 3 (KernelArg.uint b) ∈ after) ∧
      Event.read_row_bounds 0 ∈ after ∧ Event.read_row_bounds 1 ∈ after ∧
      after.getLast? = some (Event.enqueueNDRangeKernel kernel offset global_size local_size) ∧
      (execute out acc t g).host.queue =
        if out.launch = true then
          [Command.NDRangeKernel kernel offset global_size local_size]
        else []) ∧
    (execute out acc t g).host.events.count Event.finish = 1 := by
  have hev := execute_events out acc t g
  have hq := execute_queue out acc t g
  rw [execute_n] at hq
  generalize uint_at (execute out acc t g).host.row_bounds 0 = a at hev hq
  generalize uint_at (execute out acc t g).host.row_bounds 1 = b at hev hq
  rw [hev, hq]
  constructor
  · refine ⟨[Event.validate_wd FormatVector.AccDense,
        Event.validate_rw FormatMatrix.AccCsr],
      (run_events acc.default_wgs t a b).drop 4, bound_kernel t b, a,
      acc.default_wgs * div_up_clamp (uint_sub (uint_sub b a) 1) acc.default_wgs 1 1024,
      acc.default_wgs, rfl, ?_, ?_, ?_, ?_, ?_, ?_, rfl⟩
    · intro e he
      simp only [List.mem_cons, List.mem_singleton, List.not_mem_nil, or_false] at he
      rcases he with rfl | rfl <;> exact ⟨rfl, by intro h; cases h⟩
    · simp [run_events]
    · exact ⟨b, by simp [run_events]⟩
    · simp [run_events]
    · simp [run_events]
    · simp [run_events]
  · simp [run_events]


theorem execute_row_bounds_rejected (out : Outcomes) (acc : CLAccelerator)
    (t : ScheduleTask_m_extract_row) (g : Nat × Nat)
    (h : ¬ (out.copy = true ∧ t.index * 4 + 8 ≤ t.M.Ap.bytes.length)) :
    (execute out acc t g).host.row_bounds = encode_uint g.1 ++ encode_uint g.2 := by
  simp only [execute, validate_wd, validate_rw, enqueueCopyBuffer, finish, ensure_kernel,
    make_kernel, setArg, read_row_bounds, enqueueNDRangeKernel, Host.emit,
    sizeof_uint, sizeof_row_bounds]
  simp only [encode_uint, List.length_cons, List.length_nil, List.cons_append,
    List.nil_append]
  split <;> split <;> simp_all

/-- Claim C9: `execute` issues the row-boundary copy for every row index, without
a check: it reads 8 bytes at byte offset `4 * index` of the row-pointer buffer.
For a matrix with `nrows` rows this range lies inside the buffer exactly when
`index < nrows`, the copy is accepted exactly then (the device permitting), and
the two values then obtained are `Ap[index]` and `Ap[index+1]`; otherwise
`row_bounds` keeps its indeterminate initial content. -/
theorem execute_row_bounds_read (out : Outcomes) (acc : CLAccelerator)
    (t : ScheduleTask_m_extract_row) (g : Nat × Nat) (Ap : List Nat) (nrows : Nat)
    (hM : t.M.Ap.bytes = to_bytes Ap) (hr : ∀ x ∈ Ap, x < UINT_RANGE)
    (hrows : Ap.length = nrows + 1) :
    Event.enqueueCopyBuffer t.M.Ap (4 * t.index) 0 8 ∈ (execute out acc t g).host.events ∧
    (4 * t.index + 8 ≤ t.M.Ap.bytes.length ↔ t.index < nrows) ∧
    ((execute out acc t g).copy_ok = true ↔ out.copy = true ∧ t.index < nrows) ∧
    (out.copy = true ∧ t.index < nrows →
      uint_at (execute out acc t g).host.row_bounds 0 = Ap.getD t.index 0 ∧
      uint_at (execute out acc t g).host.row_bounds 1 = Ap.getD (t.index + 1) 0) ∧
    (¬ t.index < nrows →
      (execute out acc t g).host.row_bounds = encode_uint g.1 ++ encode_uint g.2) := by
  have hlen : t.M.Ap.bytes.length = 4 * (nrows + 1) := by
    rw [hM, to_bytes_length, hrows]
  refine ⟨?_, ?_, ?_, ?_, ?_⟩
  · rw [execute_events]
    simp [run_events, sizeof_uint, sizeof_row_bounds, Nat.mul_comm]
  · rw [hlen]; omega
  · rw [execute_copy_ok, hlen]
    simp only [decide_eq_true_eq]
    constructor
    · rintro ⟨h1, h2⟩; exact ⟨h1, by omega⟩
    · rintro ⟨h1, h2⟩; exact ⟨h1, by omega⟩
  · rintro ⟨hc, hi⟩
    exact execute_bounds_values out acc t g Ap hM hr (by omega) hc
  · intro hi
    apply execute_row_bounds_rejected
    rw [hlen]
    rintro ⟨_, h2⟩
    omega

/-- Claim C9 (witness): row 3 of the four-row matrix with row pointers
`[0,2,2,3,6]`. -/
theorem execute_row_bounds_read_witness :
    (∀ x ∈ [0, 2, 2, 3, 6], x < UINT_RANGE) ∧ [0, 2, 2, 3, 6].length = 4 + 1 ∧
    uint_at (execute all_ok { default_wgs := 64 } (task_of [0, 2, 2, 3, 6] 3) (0, 0)).host.row_bounds 0
      = 3 ∧
    uint_at (execute all_ok { default_wgs := 64 } (task_of [0, 2, 2, 3, 6] 3) (0, 0)).host.row_bounds 1
      = 6 :=
  ⟨by decide, by decide,
    (execute_row_bounds_read all_ok { default_wgs := 64 } (task_of [0, 2, 2, 3, 6] 3) (0, 0)
      [0, 2, 2, 3, 6] 4 rfl (by decide) (by decide)).2.2.2.1 ⟨rfl, by decide⟩⟩

/-- Claim C10: for a workgroup size `w ≥ 1` and an element count `n` computed by
`execute` with `1 ≤ n ≤ 1024 * w`, the global extent of the enqueued kernel,
`w * div_up_clamp(n, w, 1, 1024)`, is a multiple of the local extent `w`, is at
least `n` and is less than `n + w`. -/
theorem execute_global_extent (out : Outcomes) (acc : CLAccelerator)
    (t : ScheduleTask_m_extract_row) (g : Nat × Nat)
    (hw : 1 ≤ acc.default_wgs) (h1 : 1 ≤ (execute out acc t g).n)
    (h2 : (execute out acc t g).n ≤ 1024 * acc.default_wgs) :
    ∃ kernel offset global_size,
      (execute out acc t g).host.events.getLast? =
        some (Event.enqueueNDRangeKernel kernel offset global_size acc.default_wgs) ∧
      global_size =
        acc.default_wgs * div_up_clamp (execute out acc t g).n acc.default_wgs 1 1024 ∧
      acc.default_wgs ∣ global_size ∧
      (execute out acc t g).n ≤ global_size ∧
      global_size < (execute out acc t g).n + acc.default_wgs := by
  have hev := execute_events out acc t g
  have hn := execute_n out acc t g
  generalize uint_at (execute out acc t g).host.row_bounds 0 = a at hev hn
  generalize uint_at (execute out acc t g).host.row_bounds 1 = b at hev hn
  generalize (execute out acc t g).n = n at hn h1 h2
  have hge := div_up_mul_ge n acc.default_wgs hw
  have hlt := div_up_mul_lt n acc.default_wgs hw
  have hpos : 1 ≤ div_up n acc.default_wgs := by
    by_contra h0
    have hz : div_up n acc.default_wgs = 0 := by omega
    rw [hz] at hge
    omega
  have hcap : div_up n acc.default_wgs ≤ 1024 := by
    by_contra hbig
    have h3 : 1025 ≤ div_up n acc.default_wgs := by omega
    have h4 : acc.default_wgs * 1025 ≤ acc.default_wgs * div_up n acc.default_wgs :=
      Nat.mul_le_mul_left _ h3
    omega
  have hclamp : div_up_clamp n acc.default_wgs 1 1024 = div_up n acc.default_wgs := by
    simp only [div_up_clamp, clamp]; omega
  refine ⟨bound_kernel t b, a, acc.default_wgs * div_up_clamp n acc.default_wgs 1 1024,
    ?_, rfl, Dvd.intro _ rfl, ?_, ?_⟩
  · rw [hev, run_events_getLast, ← hn]
  · rw [hclamp]; exact hge
  · rw [hclamp]; exact hlt

/-- Claim C10 (witness): row 3 of the matrix with row pointers `[0,2,2,3,6]`,
workgroup size 64: `n = 2` and the global extent is 64. -/
theorem execute_global_extent_witness :
    1 ≤ (execute all_ok { default_wgs := 64 } (task_of [0, 2, 2, 3, 6] 3) (0, 0)).n ∧
    (execute all_ok { default_wgs := 64 } (task_of [0, 2, 2, 3, 6] 3) (0, 0)).n ≤ 1024 * 64 ∧
    ∃ kernel offset global_size,
      (execute all_ok { default_wgs := 64 } (task_of [0, 2, 2, 3, 6] 3) (0, 0)).host.events.getLast? =
        some (Event.enqueueNDRangeKernel kernel offset global_size 64) ∧
      global_size = 64 * div_up_clamp
        (execute all_ok { default_wgs := 64 } (task_of [0, 2, 2, 3, 6] 3) (0, 0)).n 64 1 1024 ∧
      64 ∣ global_size ∧
      (execute all_ok { default_wgs := 64 } (task_of [0, 2, 2, 3, 6] 3) (0, 0)).n ≤ global_size ∧
      global_size < (execute all_ok { default_wgs := 64 } (task_of [0, 2, 2, 3, 6] 3) (0, 0)).n + 64 :=
  ⟨by decide, by decide,
    execute_global_extent all_ok { default_wgs := 64 } (task_of [0, 2, 2, 3, 6] 3) (0, 0)
      (by decide) (by decide) (by decide)⟩

/-- With a workgroup size below `2 ^ 22` the global extent fits 32 bits, so a
32-bit product gives the same extent as the exact one. -/
theorem global_extent_fits (n w : Nat) (hw : w < 4194304) :
    (w * div_up_clamp n w 1 1024) % UINT_RANGE = w * div_up_clamp n w 1 1024 := by
  apply Nat.mod_eq_of_lt
  have h : div_up_clamp n w 1 1024 ≤ 1024 := by
    simp only [div_up_clamp, clamp]; omega
  have h2 : w * div_up_clamp n w 1 1024 ≤ w * 1024 := Nat.mul_le_mul_left w h
  unfold UINT_RANGE
  omega

end spla
